import Mathlib

/-!
Verification of the ignore-pattern engine of `zettelkasten-refactor-tool`.

The engine lives in `src/core/ignore.rs` and (a second, comment-stripped copy)
`src/core/ignore/patterns.rs`.  Both store compiled rules as a vector of
tuples `(glob::Pattern, is_negation, is_anchored)`, compile one directive
line per `add_pattern` call, and decide `matches(path)` with a two-pass
(negation-first) scan.

The glob matching itself is delegated to the external `glob` crate, whose
source is not part of this repository.  Its `Pattern` type is modelled below
in the `Glob` namespace: the pattern syntax (`*`, `?`, `[...]` classes and
the component-forming `**` globstar, with the crate's validity rules for
`**` runs) and a matcher over that token list.  Per the specification,
matching is pure textual matching in which `*`, `?` and classes may cross
path separators, while a `**` segment matches across whole path components.
-/

namespace Glob

/-- One entry of a `[...]` character class: a single character or a range. -/
inductive CharSpecifier where
  | singleChar (c : Char)
  | charRange (lo hi : Char)
  deriving DecidableEq, Repr

/-- Tokens of a compiled glob pattern, as in the glob crate's `PatternToken`. -/
inductive PatternToken where
  | char (c : Char)
  | anyChar
  | anySequence
  | anyRecursiveSequence
  | anyWithin (cs : List CharSpecifier)
  | anyExcept (cs : List CharSpecifier)
  deriving DecidableEq, Repr

/-- Parse the inside of a `[...]` class into specifiers: `a-b` makes a range
when at least three characters remain, otherwise single characters. -/
def parse_char_specifiers : List Char → List CharSpecifier
  | a :: b :: c :: rest =>
    if b = '-' then .charRange a c :: parse_char_specifiers rest
    else .singleChar a :: parse_char_specifiers (b :: c :: rest)
  | a :: rest => .singleChar a :: parse_char_specifiers rest
  | [] => []

/-- Membership of a character in a class (case-sensitive, the default). -/
def in_char_specifiers (cs : List CharSpecifier) (c : Char) : Bool :=
  cs.any fun s =>
    match s with
    | .singleChar c2 => c = c2
    | .charRange lo hi => lo ≤ c && c ≤ hi

/-- Push an `anyRecursiveSequence` token, collapsing a repeated one exactly as
the crate does (only when more than one token precedes it). -/
def pushRec (acc : List PatternToken) : List PatternToken :=
  if acc.length > 1 && acc.getLast? = some .anyRecursiveSequence then acc
  else acc ++ [.anyRecursiveSequence]

/-- Tokenizer of `glob::Pattern::new`, with an explicit fuel argument so the
recursion is structural (every step consumes at least one input character, so
a fuel of one more than the input length never runs out).  `prev` is the
character just before the remaining input (`none` at the start of the
pattern); a `**` run is valid only at the start of the pattern or after `/`,
and must be followed by `/` or end the pattern.  Runs of three or more stars,
and malformed classes, fail. -/
def tokenizeF : Nat → Option Char → List PatternToken → List Char →
    Option (List PatternToken)
  | _, _, acc, [] => some acc
  | 0, _, _, _ :: _ => none
  | n + 1, prev, acc, c :: rest =>
    if c = '*' then
      match rest with
      | '*' :: '*' :: _ => none
      | '*' :: rest2 =>
        if prev = none ∨ prev = some '/' then
          match rest2 with
          | '/' :: rest3 => tokenizeF n (some '/') (pushRec acc) rest3
          | [] => some (pushRec acc)
          | _ => none
        else none
      | _ => tokenizeF n (some '*') (acc ++ [.anySequence]) rest
    else if c = '?' then tokenizeF n (some '?') (acc ++ [.anyChar]) rest
    else if c = '[' then
      match rest with
      | [] => none
      | h :: t =>
        if h = '!' then
          if 3 ≤ rest.length then
            match (t.drop 1).findIdx? (fun x => x = ']') with
            | some j =>
              tokenizeF n (some ']')
                (acc ++ [.anyExcept (parse_char_specifiers (t.take (j + 1)))])
                (t.drop (j + 2))
            | none => none
          else none
        else
          if 2 ≤ rest.length then
            match t.findIdx? (fun x => x = ']') with
            | some j =>
              tokenizeF n (some ']')
                (acc ++ [.anyWithin (parse_char_specifiers (rest.take (j + 1)))])
                (t.drop (j + 1))
            | none => none
          else none
    else tokenizeF n (some c) (acc ++ [.char c]) rest

/-- Run the tokenizer with enough fuel for the whole input. -/
def tokenize (prev : Option Char) (acc : List PatternToken)
    (l : List Char) : Option (List PatternToken) :=
  tokenizeF (l.length + 1) prev acc l

/-- A compiled glob pattern: the original source text (the engine inspects it
with `as_str().contains('/')`) together with its token list. -/
structure Pattern where
  original : String
  tokens : List PatternToken
  deriving DecidableEq, Repr

/-- Model of `glob::Pattern::new`: `none` is a compile error. -/
def Pattern.new (s : String) : Option Pattern :=
  (tokenize none [] s.toList).map fun toks => { original := s, tokens := toks }

/-- All suffixes of `s` that start immediately after a `/`: the candidate
continuation points of a `**` segment. -/
def compTails : List Char → List (List Char)
  | [] => []
  | c :: rest => if c = '/' then rest :: compTails rest else compTails rest

/-- The `*` loop: try the continuation `k` on the current suffix, then keep
consuming one character (separators included, per the default options) and
retrying. -/
def anySeqLoop (k : List Char → Bool) : List Char → Bool
  | [] => k []
  | c :: s2 => k (c :: s2) || anySeqLoop k s2

/-- Matcher over the token list, with the crate's default options
(case-sensitive, separators not required to be literal).  `?`, classes and
`*` may consume `/`; a non-final `**` consumes either nothing or a sequence
of whole path components (a prefix ending in `/`); a final `**` matches any
remainder. -/
def matchTokens : List PatternToken → List Char → Bool
  | [] => fun s => s.isEmpty
  | .char c :: ts => fun s =>
    match s with
    | [] => false
    | c2 :: s2 => c2 = c && matchTokens ts s2
  | .anyChar :: ts => fun s =>
    match s with
    | [] => false
    | _ :: s2 => matchTokens ts s2
  | .anyWithin cs :: ts => fun s =>
    match s with
    | [] => false
    | c2 :: s2 => in_char_specifiers cs c2 && matchTokens ts s2
  | .anyExcept cs :: ts => fun s =>
    match s with
    | [] => false
    | c2 :: s2 => !in_char_specifiers cs c2 && matchTokens ts s2
  | .anySequence :: ts => anySeqLoop (matchTokens ts)
  | .anyRecursiveSequence :: ts => fun s =>
    if ts.isEmpty then true
    else (s :: compTails s).any fun t => matchTokens ts t

/-- Model of `glob::Pattern::matches` on a candidate string. -/
def Pattern.matches (p : Pattern) (s : String) : Bool :=
  matchTokens p.tokens s.toList

end Glob

/-!
Shared string utilities mirroring the Rust standard-library operations the
engine uses (`str::contains`, `str::replace`, `str::split_once`), expressed
over the character list of the string, plus a model of `Path::file_name`.
-/


/-- `str::trim`: remove leading and trailing whitespace characters. -/
def strTrim (s : String) : String :=
  ⟨((s.toList.dropWhile Char.isWhitespace).reverse.dropWhile Char.isWhitespace).reverse⟩

/-- `str::starts_with(char)`. -/
def startsWithCh (s : String) (c : Char) : Bool :=
  match s.toList with
  | [] => false
  | x :: _ => x = c

/-- `str::ends_with(char)`. -/
def endsWithCh (s : String) (c : Char) : Bool :=
  match s.toList.getLast? with
  | none => false
  | some x => x = c

/-- Split a character list on a separator character, keeping empty chunks,
like `str::split(char)`. -/
def splitChar (sep : Char) : List Char → List (List Char)
  | [] => [[]]
  | c :: rest =>
    if c = sep then [] :: splitChar sep rest
    else
      match splitChar sep rest with
      | [] => [[c]]
      | h :: t => (c :: h) :: t

/-- `str::split(char)` on a string, as strings. -/
def strSplitCh (s : String) (sep : Char) : List String :=
  (splitChar sep s.toList).map fun c => ⟨c⟩

/-- `str::contains(char)`. -/
def hasChar (s : String) (c : Char) : Bool :=
  s.toList.contains c

/-- Whether the string contains the two-character substring `**`. -/
def hasGlobstarSub : List Char → Bool
  | a :: b :: rest => (a = '*' && b = '*') || hasGlobstarSub (b :: rest)
  | _ => false

/-- `str::contains("**")`. -/
def hasGlobstar (s : String) : Bool :=
  hasGlobstarSub s.toList

/-- Leftmost, non-overlapping replacement of `**` by `[GLOBSTAR]`,
as `str::replace("**", "[GLOBSTAR]")`. -/
def protectGlobstar : List Char → List Char
  | '*' :: '*' :: rest => "[GLOBSTAR]".toList ++ protectGlobstar rest
  | c :: rest => c :: protectGlobstar rest
  | [] => []

/-- `str::replace("**", "[GLOBSTAR]")` on a string. -/
def strProtectGlobstar (s : String) : String :=
  ⟨protectGlobstar s.toList⟩

/-- Leftmost, non-overlapping replacement of `[GLOBSTAR]` by `**`,
as `str::replace("[GLOBSTAR]", "**")`. -/
def restoreGlobstar : List Char → List Char
  | '[' :: 'G' :: 'L' :: 'O' :: 'B' :: 'S' :: 'T' :: 'A' :: 'R' :: ']' :: rest =>
    '*' :: '*' :: restoreGlobstar rest
  | c :: rest => c :: restoreGlobstar rest
  | [] => []

/-- `str::replace("[GLOBSTAR]", "**")` on a string. -/
def strRestoreGlobstar (s : String) : String :=
  ⟨restoreGlobstar s.toList⟩

/-- `str::split_once(c)` on character lists: the part before the first
occurrence of `c` and the part after it. -/
def splitOnceList (c : Char) : List Char → Option (List Char × List Char)
  | [] => none
  | x :: xs =>
    if x = c then some ([], xs)
    else (splitOnceList c xs).map fun p => (x :: p.1, p.2)

/-- `str::split_once(c)` on strings. -/
def splitOnce (s : String) (c : Char) : Option (String × String) :=
  (splitOnceList c s.toList).map fun p => (⟨p.1⟩, ⟨p.2⟩)

/-- Split a character list on `/` into chunks (like `str::split('/')`). -/
def splitSlash (l : List Char) : List (List Char) :=
  splitChar '/' l

/-- Model of `Path::file_name().map(to_string_lossy).unwrap_or_default()` for
Unix-style path strings: path components are the `/`-separated chunks with
empty and `.` chunks dropped; the filename is the last component, or the
empty string when there is none or when the path ends in a `..` component. -/
def fileName (p : String) : String :=
  let comps := (splitSlash p.toList).filter fun c => !(c = [] || c = ['.'])
  match comps.getLast? with
  | none => ""
  | some c => if c = ['.', '.'] then "" else ⟨c⟩

/-!
The engine of `src/core/ignore.rs`.  `Patterns` is the ordered rule store: a
list of `(pattern, is_negation, is_anchored_to_root)` tuples.  `add_pattern`
compiles one directive line (mutation is modelled by returning the new store
together with the `Ok`/`Err` outcome as a `Bool`, `false` meaning `Err`), and
`matches` is the two-pass negation-first matcher.
-/

namespace CoreIgnore

/-- The rule store of `Patterns`: `(pattern, is_negation, is_anchored_to_root)`. -/
abbrev Patterns := List (Glob.Pattern × Bool × Bool)

/-- The intermediate values computed by the let-bindings at the top of
`add_pattern` (lines 49-101 of `src/core/ignore.rs`): the rewritten glob
string and the flags derived from the trimmed directive. -/
structure LineParse where
  globPattern : String
  isNegation : Bool
  isAnchored : Bool
  patternStrForLater : String
  isBareFilename : Bool
  deriving DecidableEq, Repr

/-- The prefix of `add_pattern` that rewrites a (trimmed, non-comment)
directive into a glob string: strip `!` and `/` markers, expand directory
and directory-name shorthands, protect `**`, and prefix `**/` onto
non-anchored separator-free patterns. -/
def parse_line (pattern : String) : LineParse :=
  let stripped := if startsWithCh pattern '!' then pattern.drop 1 else pattern
  let is_negation := startsWithCh pattern '!'
  let is_anchored := startsWithCh stripped '/'
  let pattern_str := if is_anchored then stripped.drop 1 else stripped
  let is_bare_filename := !hasChar pattern_str '/' && !hasChar pattern_str '\\' &&
    !hasChar pattern_str '*' && !hasChar pattern_str '?' && !hasChar pattern_str '['
  let glob_pattern :=
    if hasChar pattern_str '*' || hasChar pattern_str '?' || hasChar pattern_str '[' then
      if hasGlobstar pattern_str then strProtectGlobstar pattern_str else pattern_str
    else if endsWithCh pattern_str '/' then
      if is_negation then "**/" ++ pattern_str ++ "**/*"
      else "**/" ++ pattern_str ++ "**"
    else if is_negation || hasChar pattern_str '.' || is_bare_filename then pattern_str
    else pattern_str ++ "/**"
  let glob_pattern :=
    if !is_anchored && !hasChar glob_pattern '/' && !hasChar glob_pattern '\\' then
      "**/" ++ glob_pattern
    else glob_pattern
  { globPattern := glob_pattern, isNegation := is_negation, isAnchored := is_anchored,
    patternStrForLater := pattern_str, isBareFilename := is_bare_filename }

/-- The `for ext in extensions` loop of the extension-group branch of
`add_pattern`: compile `prefix ++ ext ++ rest` (with the globstar token
restored) for each extension, pushing one rule per extension; a compile
failure aborts the loop, keeping the rules already pushed. -/
def add_exts (self : Patterns) (pre rest : String) (is_negation is_anchored : Bool) :
    List String → Patterns × Bool
  | [] => (self, true)
  | ext :: more =>
    let full_pattern := strRestoreGlobstar (pre ++ ext ++ rest)
    match Glob.Pattern.new full_pattern with
    | none => (self, false)
    | some p =>
      add_exts (self ++ [(p, is_negation, is_anchored)]) pre rest is_negation is_anchored more

/-- `Patterns::add_pattern` of `src/core/ignore.rs`: returns the updated rule
store and `true` for `Ok(())`, `false` for `Err`. -/
def add_pattern (self : Patterns) (pattern : String) : Patterns × Bool :=
  let pattern := strTrim pattern
  if pattern.isEmpty || startsWithCh pattern '#' then (self, true)
  else
    let lp := parse_line pattern
    if hasChar lp.globPattern '\x7b' then
      match splitOnce lp.globPattern '\x7b' with
      | none => (self, false)
      | some (pre, suffix) =>
        match splitOnce suffix '\x7d' with
        | none => (self, false)
        | some (extensions, rest) =>
          add_exts self pre rest lp.isNegation lp.isAnchored
            ((strSplitCh extensions ',').map strTrim)
    else if lp.isBareFilename && !lp.isAnchored then
      match Glob.Pattern.new ("**/" ++ lp.patternStrForLater) with
      | none => (self, false)
      | some p1 =>
        match Glob.Pattern.new lp.patternStrForLater with
        | none => (self ++ [(p1, lp.isNegation, false)], false)
        | some p2 =>
          (self ++ [(p1, lp.isNegation, false), (p2, lp.isNegation, false)], true)
    else
      let glob_pattern := strRestoreGlobstar lp.globPattern
      match Glob.Pattern.new glob_pattern with
      | none => (self, false)
      | some p => (self ++ [(p, lp.isNegation, lp.isAnchored)], true)

/-- `Patterns::matches` of `src/core/ignore.rs` (`matches` is reserved in Lean): derive the path string and
filename, then scan all rules twice — negations first (any non-skipped
matching negation decides `false`), then normal rules (any non-skipped match
decides `true`).  A rule is skipped when it is a simple root anchor
(anchored, glob text without `/`) and the path contains a separator. -/
def matches_path (self : Patterns) (path : String) : Bool :=
  let path_str := path
  let filename := fileName path
  let neg_hit := self.any fun r =>
    let is_simple_anchored := r.2.2 && !hasChar r.1.original '/'
    !(is_simple_anchored && hasChar path_str '/') &&
      (r.2.1 && (r.1.matches path_str || r.1.matches filename))
  if neg_hit then false
  else
    self.any fun r =>
      let is_simple_anchored := r.2.2 && !hasChar r.1.original '/'
      !(is_simple_anchored && hasChar path_str '/') &&
        (!r.2.1 && (r.1.matches path_str || r.1.matches filename))

/-- The per-line loop of `load_ignore_patterns`: feed each line to
`add_pattern`, stopping at (and propagating) the first error. -/
def add_lines (self : Patterns) : List String → Patterns × Bool
  | [] => (self, true)
  | l :: ls =>
    match add_pattern self l with
    | (ps, true) => add_lines ps ls
    | (ps, false) => (ps, false)

end CoreIgnore

/-!
The engine of `src/core/ignore/patterns.rs`.  This file of the repository is
a comment-stripped copy of the engine in `src/core/ignore.rs` (with the
loader moved to `src/core/ignore/loader.rs`); it is transcribed separately so
that the equivalence of the two coexisting implementations can be stated and
proved.
-/

namespace CoreIgnorePatterns

/-- The rule store of `Patterns` in `src/core/ignore/patterns.rs`. -/
abbrev Patterns := List (Glob.Pattern × Bool × Bool)

/-- The let-bindings at the top of `add_pattern`
(lines 47-91 of `src/core/ignore/patterns.rs`). -/
def parse_line (pattern : String) : CoreIgnore.LineParse :=
  let stripped := if startsWithCh pattern '!' then pattern.drop 1 else pattern
  let is_negation := startsWithCh pattern '!'
  let is_anchored := startsWithCh stripped '/'
  let pattern_str := if is_anchored then stripped.drop 1 else stripped
  let is_bare_filename := !hasChar pattern_str '/' && !hasChar pattern_str '\\' &&
    !hasChar pattern_str '*' && !hasChar pattern_str '?' && !hasChar pattern_str '['
  let glob_pattern :=
    if hasChar pattern_str '*' || hasChar pattern_str '?' || hasChar pattern_str '[' then
      if hasGlobstar pattern_str then strProtectGlobstar pattern_str else pattern_str
    else if endsWithCh pattern_str '/' then
      if is_negation then "**/" ++ pattern_str ++ "**/*"
      else "**/" ++ pattern_str ++ "**"
    else if is_negation || hasChar pattern_str '.' || is_bare_filename then pattern_str
    else pattern_str ++ "/**"
  let glob_pattern :=
    if !is_anchored && !hasChar glob_pattern '/' && !hasChar glob_pattern '\\' then
      "**/" ++ glob_pattern
    else glob_pattern
  { globPattern := glob_pattern, isNegation := is_negation, isAnchored := is_anchored,
    patternStrForLater := pattern_str, isBareFilename := is_bare_filename }

/-- The extension-group loop of `add_pattern` in `src/core/ignore/patterns.rs`. -/
def add_exts (self : Patterns) (pre rest : String) (is_negation is_anchored : Bool) :
    List String → Patterns × Bool
  | [] => (self, true)
  | ext :: more =>
    let full_pattern := strRestoreGlobstar (pre ++ ext ++ rest)
    match Glob.Pattern.new full_pattern with
    | none => (self, false)
    | some p =>
      add_exts (self ++ [(p, is_negation, is_anchored)]) pre rest is_negation is_anchored more

/-- `Patterns::add_pattern` of `src/core/ignore/patterns.rs`. -/
def add_pattern (self : Patterns) (pattern : String) : Patterns × Bool :=
  let pattern := strTrim pattern
  if pattern.isEmpty || startsWithCh pattern '#' then (self, true)
  else
    let lp := parse_line pattern
    if hasChar lp.globPattern '\x7b' then
      match splitOnce lp.globPattern '\x7b' with
      | none => (self, false)
      | some (pre, suffix) =>
        match splitOnce suffix '\x7d' with
        | none => (self, false)
        | some (extensions, rest) =>
          add_exts self pre rest lp.isNegation lp.isAnchored
            ((strSplitCh extensions ',').map strTrim)
    else if lp.isBareFilename && !lp.isAnchored then
      match Glob.Pattern.new ("**/" ++ lp.patternStrForLater) with
      | none => (self, false)
      | some p1 =>
        match Glob.Pattern.new lp.patternStrForLater with
        | none => (self ++ [(p1, lp.isNegation, false)], false)
        | some p2 =>
          (self ++ [(p1, lp.isNegation, false), (p2, lp.isNegation, false)], true)
    else
      let glob_pattern := strRestoreGlobstar lp.globPattern
      match Glob.Pattern.new glob_pattern with
      | none => (self, false)
      | some p => (self ++ [(p, lp.isNegation, lp.isAnchored)], true)

/-- `Patterns::matches` of `src/core/ignore/patterns.rs`
(`matches` is reserved in Lean). -/
def matches_path (self : Patterns) (path : String) : Bool :=
  let path_str := path
  let filename := fileName path
  let neg_hit := self.any fun r =>
    let is_simple_anchored := r.2.2 && !hasChar r.1.original '/'
    !(is_simple_anchored && hasChar path_str '/') &&
      (r.2.1 && (r.1.matches path_str || r.1.matches filename))
  if neg_hit then false
  else
    self.any fun r =>
      let is_simple_anchored := r.2.2 && !hasChar r.1.original '/'
      !(is_simple_anchored && hasChar path_str '/') &&
        (!r.2.1 && (r.1.matches path_str || r.1.matches filename))

/-- The per-line loop of `load_ignore_patterns` in
`src/core/ignore/loader.rs`. -/
def add_lines (self : Patterns) : List String → Patterns × Bool
  | [] => (self, true)
  | l :: ls =>
    match add_pattern self l with
    | (ps, true) => add_lines ps ls
    | (ps, false) => (ps, false)

end CoreIgnorePatterns

/-!
Helper lemmas.
-/

theorem add_exts_eq (exts : List String) :
    ∀ self pre rest n a, CoreIgnorePatterns.add_exts self pre rest n a exts =
      CoreIgnore.add_exts self pre rest n a exts := by
  induction exts with
  | nil => intro self pre rest n a; rfl
  | cons e more ih =>
    intro self pre rest n a
    simp only [CoreIgnore.add_exts, CoreIgnorePatterns.add_exts]
    cases Glob.Pattern.new (strRestoreGlobstar (pre ++ e ++ rest)) <;> simp [ih]

theorem parse_line_eq : CoreIgnorePatterns.parse_line = CoreIgnore.parse_line := rfl

theorem add_pattern_eq (ps : CoreIgnore.Patterns) (line : String) :
    CoreIgnorePatterns.add_pattern ps line = CoreIgnore.add_pattern ps line := by
  have hexts : CoreIgnorePatterns.add_exts = CoreIgnore.add_exts := by
    funext self pre rest n a exts
    exact add_exts_eq exts self pre rest n a
  simp only [CoreIgnore.add_pattern, CoreIgnorePatterns.add_pattern, parse_line_eq, hexts]

theorem add_lines_eq (lines : List String) :
    ∀ ps, CoreIgnorePatterns.add_lines ps lines = CoreIgnore.add_lines ps lines := by
  induction lines with
  | nil => intro ps; rfl
  | cons l ls ih =>
    intro ps
    simp only [CoreIgnore.add_lines, CoreIgnorePatterns.add_lines, add_pattern_eq]
    cases CoreIgnore.add_pattern ps l with
    | mk ps2 ok => cases ok <;> simp [ih]

theorem neg_rule_wins (rs : CoreIgnore.Patterns) (path : String)
    (r : Glob.Pattern × Bool × Bool) (hmem : r ∈ rs) (hneg : r.2.1 = true)
    (hskip : ((r.2.2 && !hasChar r.1.original '/') && hasChar path '/') = false)
    (hmatch : (r.1.matches path || r.1.matches (fileName path)) = true) :
    CoreIgnore.matches_path rs path = false := by
  have h1 : (rs.any fun t =>
      !((t.2.2 && !hasChar t.1.original '/') && hasChar path '/') &&
        (t.2.1 && (t.1.matches path || t.1.matches (fileName path)))) = true := by
    refine List.any_eq_true.2 ⟨r, hmem, ?_⟩
    rw [hneg, hmatch, hskip]
    rfl
  simp only [CoreIgnore.matches_path, h1, if_true]

theorem add_exts_extends (exts : List String) :
    ∀ self pre rest n a, ∃ t, (CoreIgnore.add_exts self pre rest n a exts).1 = self ++ t := by
  induction exts with
  | nil => intro self pre rest n a; exact ⟨[], by simp [CoreIgnore.add_exts]⟩
  | cons e more ih =>
    intro self pre rest n a
    simp only [CoreIgnore.add_exts]
    cases hp : Glob.Pattern.new (strRestoreGlobstar (pre ++ e ++ rest)) with
    | none => exact ⟨[], by simp⟩
    | some p =>
      obtain ⟨t, ht⟩ := ih (self ++ [(p, n, a)]) pre rest n a
      exact ⟨(p, n, a) :: t, by simp [ht]⟩

theorem add_pattern_extends (ps : CoreIgnore.Patterns) (line : String) :
    ∃ t, (CoreIgnore.add_pattern ps line).1 = ps ++ t := by
  unfold CoreIgnore.add_pattern
  dsimp only
  split
  · exact ⟨[], by simp⟩
  · split
    · split
      · exact ⟨[], by simp⟩
      · split
        · exact ⟨[], by simp⟩
        · apply add_exts_extends
    · split
      · split
        · exact ⟨[], by simp⟩
        · split
          · exact ⟨_, rfl⟩
          · exact ⟨_, rfl⟩
      · split
        · exact ⟨[], by simp⟩
        · exact ⟨_, rfl⟩

theorem tokenizeF_literal (l : List Char) :
    ∀ n prev acc, l.length < n → (∀ c ∈ l, c ≠ '*' ∧ c ≠ '?' ∧ c ≠ '[') →
    Glob.tokenizeF n prev acc l = some (acc ++ l.map Glob.PatternToken.char) := by
  induction l with
  | nil => intro n prev acc _ _; cases n <;> simp [Glob.tokenizeF]
  | cons c rest ih =>
    intro n prev acc h hc
    obtain ⟨n2, rfl⟩ : ∃ n2, n = n2 + 1 := ⟨n - 1, by omega⟩
    obtain ⟨h1, h2, h3⟩ := hc c (by simp)
    rw [show Glob.tokenizeF (n2 + 1) prev acc (c :: rest) =
        Glob.tokenizeF n2 (some c) (acc ++ [Glob.PatternToken.char c]) rest by
      simp [Glob.tokenizeF, h1, h2, h3]]
    rw [ih n2 (some c) (acc ++ [Glob.PatternToken.char c]) (by simp at h ⊢; omega)
      (fun d hd => hc d (by simp [hd]))]
    simp

theorem pattern_new_literal (s : String)
    (h : ∀ c ∈ s.toList, c ≠ '*' ∧ c ≠ '?' ∧ c ≠ '[') :
    Glob.Pattern.new s = some ⟨s, s.toList.map Glob.PatternToken.char⟩ := by
  unfold Glob.Pattern.new Glob.tokenize
  rw [tokenizeF_literal s.toList (s.toList.length + 1) none [] (Nat.lt_succ_self _) h]
  rfl

theorem pattern_new_recursive_literal (s : String)
    (h : ∀ c ∈ s.toList, c ≠ '*' ∧ c ≠ '?' ∧ c ≠ '[') :
    Glob.Pattern.new ("**/" ++ s) =
      some ⟨"**/" ++ s, .anyRecursiveSequence :: s.toList.map Glob.PatternToken.char⟩ := by
  have hdata : ("**/" ++ s).toList = '*' :: '*' :: '/' :: s.toList := by
    show ("**/" ++ s).data = _
    rw [String.data_append]
    rfl
  unfold Glob.Pattern.new Glob.tokenize
  rw [hdata]
  have hred : Glob.tokenizeF (('*' :: '*' :: '/' :: s.toList).length + 1) none []
      ('*' :: '*' :: '/' :: s.toList) =
      Glob.tokenizeF (s.toList.length + 3) (some '/') [Glob.PatternToken.anyRecursiveSequence]
        s.toList := by
    show Glob.tokenizeF (s.toList.length + 3 + 1) none [] _ = _
    simp [Glob.tokenizeF, Glob.pushRec]
  rw [hred, tokenizeF_literal s.toList (s.toList.length + 3) (some '/')
    [Glob.PatternToken.anyRecursiveSequence] (by omega) h]
  rfl

theorem parse_line_bare_chars (p : String)
    (h : (CoreIgnore.parse_line p).isBareFilename = true) :
    ∀ c ∈ (CoreIgnore.parse_line p).patternStrForLater.toList,
      c ≠ '*' ∧ c ≠ '?' ∧ c ≠ '[' := by
  unfold CoreIgnore.parse_line at h ⊢
  dsimp only at h ⊢
  simp only [hasChar, Bool.and_eq_true, Bool.not_eq_true'] at h
  intro c hc
  refine ⟨?_, ?_, ?_⟩ <;> rintro rfl <;> simp_all

theorem add_pattern_err_unchanged (ps : CoreIgnore.Patterns) (line : String)
    (hb : hasChar (CoreIgnore.parse_line (strTrim line)).globPattern '\x7b' = false)
    (he : (CoreIgnore.add_pattern ps line).2 = false) :
    (CoreIgnore.add_pattern ps line).1 = ps := by
  by_cases h1 : ((strTrim line).isEmpty || startsWithCh (strTrim line) '#') = true
  · simp [CoreIgnore.add_pattern, h1] at he
  · by_cases h2 : ((CoreIgnore.parse_line (strTrim line)).isBareFilename &&
        !(CoreIgnore.parse_line (strTrim line)).isAnchored) = true
    · have hbf : (CoreIgnore.parse_line (strTrim line)).isBareFilename = true := by
        have h3 := h2
        simp only [Bool.and_eq_true] at h3
        exact h3.1
      have hch := parse_line_bare_chars _ hbf
      have hok : (CoreIgnore.add_pattern ps line).2 = true := by
        simp [CoreIgnore.add_pattern, h1, hb, h2,
          pattern_new_recursive_literal _ hch, pattern_new_literal _ hch]
      rw [hok] at he
      simp at he
    · cases hp : Glob.Pattern.new
          (strRestoreGlobstar (CoreIgnore.parse_line (strTrim line)).globPattern) with
      | none => simp [CoreIgnore.add_pattern, h1, hb, h2, hp]
      | some p =>
        have hok : (CoreIgnore.add_pattern ps line).2 = true := by
          simp [CoreIgnore.add_pattern, h1, hb, h2, hp]
        rw [hok] at he
        simp at he

theorem matchTokens_literal (cs : List Char) :
    ∀ s, Glob.matchTokens (cs.map Glob.PatternToken.char) s = true ↔ s = cs := by
  induction cs with
  | nil =>
    intro s
    simp [Glob.matchTokens, List.isEmpty_iff]
  | cons c cs ih =>
    intro s
    cases s with
    | nil => simp [Glob.matchTokens]
    | cons c2 s2 => simp [Glob.matchTokens, ih, and_comm]

theorem matchTokens_rec_cons (ts : List Glob.PatternToken) (hts : ts ≠ []) (s : List Char) :
    Glob.matchTokens (.anyRecursiveSequence :: ts) s = true ↔
      (Glob.matchTokens ts s = true ∨
        ∃ t ∈ Glob.compTails s, Glob.matchTokens ts t = true) := by
  simp [Glob.matchTokens, List.isEmpty_iff, hts]

theorem compTails_mem (t : List Char) :
    ∀ s, t ∈ Glob.compTails s ↔ ∃ u, s = u ++ '/' :: t := by
  intro s
  induction s with
  | nil => simp [Glob.compTails]
  | cons c s2 ih =>
    simp only [Glob.compTails]
    by_cases hc : c = '/'
    · subst hc
      rw [if_pos rfl]
      simp only [List.mem_cons, ih]
      constructor
      · intro h
        rcases h with h | ⟨u, rfl⟩
        · exact ⟨[], by rw [h]; rfl⟩
        · exact ⟨'/' :: u, rfl⟩
      · rintro ⟨u, hu⟩
        cases u with
        | nil =>
          simp only [List.nil_append, List.cons.injEq, true_and] at hu
          exact Or.inl hu.symm
        | cons x u2 =>
          simp only [List.cons_append, List.cons.injEq] at hu
          exact Or.inr ⟨u2, hu.2⟩
    · rw [if_neg hc]
      rw [ih]
      constructor
      · rintro ⟨u, rfl⟩
        exact ⟨c :: u, rfl⟩
      · rintro ⟨u, hu⟩
        cases u with
        | nil =>
          simp only [List.nil_append, List.cons.injEq] at hu
          exact absurd hu.1 hc
        | cons x u2 =>
          simp only [List.cons_append, List.cons.injEq] at hu
          exact ⟨u2, hu.2⟩

theorem splitChar_cons_sep (sep : Char) (x : List Char) :
    splitChar sep (sep :: x) = [] :: splitChar sep x := by
  simp [splitChar]

theorem splitChar_cons_ne (sep c : Char) (x : List Char) (hc : c ≠ sep) :
    splitChar sep (c :: x) =
      match splitChar sep x with
      | [] => [[c]]
      | h :: t => (c :: h) :: t := by
  simp [splitChar, hc]

theorem splitChar_ne_nil (sep : Char) (l : List Char) : splitChar sep l ≠ [] := by
  cases l with
  | nil => simp [splitChar]
  | cons c rest =>
    by_cases hc : c = sep
    · subst hc
      rw [splitChar_cons_sep]
      simp
    · rw [splitChar_cons_ne sep c rest hc]
      cases splitChar sep rest <;> simp

theorem splitChar_append (sep : Char) (v : List Char) :
    ∀ u, splitChar sep (u ++ sep :: v) = splitChar sep u ++ splitChar sep v := by
  intro u
  induction u with
  | nil =>
    rw [List.nil_append, splitChar_cons_sep]
    rfl
  | cons c u2 ih =>
    by_cases hc : c = sep
    · subst hc
      rw [List.cons_append, splitChar_cons_sep, splitChar_cons_sep, ih]
      rfl
    · obtain ⟨h0, t0, hht⟩ : ∃ h0 t0, splitChar sep u2 = h0 :: t0 := by
        cases hsp : splitChar sep u2 with
        | nil => exact absurd hsp (splitChar_ne_nil sep u2)
        | cons h0 t0 => exact ⟨h0, t0, rfl⟩
      rw [List.cons_append, splitChar_cons_ne sep c _ hc, splitChar_cons_ne sep c _ hc,
        ih, hht]
      rfl

theorem splitChar_no_sep (sep : Char) (l : List Char) (h : sep ∉ l) :
    splitChar sep l = [l] := by
  induction l with
  | nil => rfl
  | cons c rest ih =>
    have hc : ¬(c = sep) := fun hh => h (hh ▸ List.mem_cons_self c rest)
    have hr : sep ∉ rest := fun hh => h (List.mem_cons_of_mem c hh)
    rw [splitChar_cons_ne sep c rest hc, ih hr]

theorem mem_splitChar (sep : Char) (l : List Char) :
    ∀ c ∈ splitChar sep l, sep ∉ c := by
  induction l with
  | nil =>
    intro c hc
    simp only [splitChar, List.mem_singleton] at hc
    simp [hc]
  | cons x rest ih =>
    intro c hc
    by_cases hx : x = sep
    · subst hx
      rw [splitChar_cons_sep] at hc
      rcases List.mem_cons.1 hc with rfl | hc2
      · simp
      · exact ih c hc2
    · rw [splitChar_cons_ne sep x rest hx] at hc
      obtain ⟨h0, t0, hht⟩ : ∃ h0 t0, splitChar sep rest = h0 :: t0 := by
        cases hsp : splitChar sep rest with
        | nil => exact absurd hsp (splitChar_ne_nil sep rest)
        | cons h0 t0 => exact ⟨h0, t0, rfl⟩
      rw [hht] at hc
      rcases List.mem_cons.1 hc with rfl | hc2
      · intro hmem
        rcases List.mem_cons.1 hmem with rfl | hmem2
        · exact hx rfl
        · exact ih h0 (hht ▸ List.mem_cons_self h0 t0) hmem2
      · exact ih c (hht ▸ List.mem_cons_of_mem h0 hc2)

theorem fileName_eq_of_decomp (p : String) (u w : List Char) (hp : p.toList = u ++ '/' :: w)
    (hne : w ≠ []) (hdot : w ≠ ['.']) (hdd : w ≠ ['.', '.']) (hsl : '/' ∉ w) :
    fileName p = ⟨w⟩ := by
  unfold fileName splitSlash
  dsimp only
  rw [hp, splitChar_append, splitChar_no_sep _ _ hsl, List.filter_append]
  have hw : List.filter (fun c => !(c = [] || c = ['.'])) [w] = [w] := by
    simp [hne, hdot]
  rw [hw]
  have hlast : (List.filter (fun c => !(c = [] || c = ['.'])) (splitChar '/' u) ++
      [w]).getLast? = some w := by simp
  rw [hlast]
  simp [hdd]

theorem fileName_no_slash (p : String) : '/' ∉ (fileName p).toList := by
  unfold fileName splitSlash
  dsimp only
  cases hl : (List.filter (fun c => !(c = [] || c = ['.'])) (splitChar '/' p.toList)).getLast?
      with
  | none => simp
  | some c =>
    have hmem : c ∈ splitChar '/' p.toList :=
      List.filter_subset' _ (List.mem_of_mem_getLast? (Option.mem_def.2 hl))
    have hns := mem_splitChar '/' p.toList c hmem
    by_cases hdd : c = ['.', '.'] <;> simp [hdd, hns]

theorem fileName_whole (p : String) (w : List Char) (hp : p.toList = w)
    (hne : w ≠ []) (hdot : w ≠ ['.']) (hdd : w ≠ ['.', '.']) (hsl : '/' ∉ w) :
    fileName p = ⟨w⟩ := by
  unfold fileName splitSlash
  dsimp only
  rw [hp, splitChar_no_sep _ _ hsl]
  have hw : List.filter (fun c => !(c = [] || c = ['.'])) [w] = [w] := by
    simp [hne, hdot]
  rw [hw]
  simp [hdd]

/-!
Claim theorems.
-/

set_option maxRecDepth 400000

/-- C3: for the pattern set built from the single directory directive
`foo/`, `matches("foo/bar.txt")` is true, `matches("x/foo/bar.txt")` is true
(direct children and deep descendants of a `foo` directory at any depth),
and `matches("foobar.txt")` is false (a name merely sharing the prefix does
not match). -/
theorem C3_directory_directive :
    CoreIgnore.matches_path (CoreIgnore.add_lines [] ["foo/"]).1 "foo/bar.txt" = true ∧
    CoreIgnore.matches_path (CoreIgnore.add_lines [] ["foo/"]).1 "x/foo/bar.txt" = true ∧
    CoreIgnore.matches_path (CoreIgnore.add_lines [] ["foo/"]).1 "foobar.txt" = false := by
  refine ⟨?_, ?_, ?_⟩ <;> decide

/-- C8: end-to-end scenario over the four directive lines `*.tmp`, `draft/`,
`!draft/important.md`, `node_modules/`: the five expected verdicts hold. -/
theorem C8_end_to_end :
    CoreIgnore.matches_path
      (CoreIgnore.add_lines [] ["*.tmp", "draft/", "!draft/important.md", "node_modules/"]).1
      "a.tmp" = true ∧
    CoreIgnore.matches_path
      (CoreIgnore.add_lines [] ["*.tmp", "draft/", "!draft/important.md", "node_modules/"]).1
      "draft/x.md" = true ∧
    CoreIgnore.matches_path
      (CoreIgnore.add_lines [] ["*.tmp", "draft/", "!draft/important.md", "node_modules/"]).1
      "draft/important.md" = false ∧
    CoreIgnore.matches_path
      (CoreIgnore.add_lines [] ["*.tmp", "draft/", "!draft/important.md", "node_modules/"]).1
      "node_modules/pkg/index.js" = true ∧
    CoreIgnore.matches_path
      (CoreIgnore.add_lines [] ["*.tmp", "draft/", "!draft/important.md", "node_modules/"]).1
      "src/index.js" = false := by
  refine ⟨?_, ?_, ?_, ?_, ?_⟩ <;> decide

/-- C10: determinism — building a pattern set twice from the same directive
lines in the same order yields identical match verdicts on every path (the
embedded engine is a pure function of its inputs). -/
theorem C10_determinism (lines : List String) (path : String)
    (ps1 ps2 : CoreIgnore.Patterns)
    (h1 : ps1 = (CoreIgnore.add_lines [] lines).1)
    (h2 : ps2 = (CoreIgnore.add_lines [] lines).1) :
    CoreIgnore.matches_path ps1 path = CoreIgnore.matches_path ps2 path := by
  subst h1
  subst h2
  rfl

/-- Witness for C10 at a concrete spec and path. -/
theorem C10_determinism_witness :
    CoreIgnore.matches_path (CoreIgnore.add_lines [] ["*.txt"]).1 "a.txt" =
      CoreIgnore.matches_path (CoreIgnore.add_lines [] ["*.txt"]).1 "a.txt" :=
  C10_determinism ["*.txt"] "a.txt" _ _ rfl rfl

/-- C9: the two coexisting implementations (`src/core/ignore.rs` and
`src/core/ignore/patterns.rs`, the latter loaded through
`src/core/ignore/loader.rs`) are extensionally equal: `add_pattern` produces
the same store and the same `Ok`/`Err` outcome, `matches` the same verdict,
and the per-line loading loop the same result, on all inputs. -/
theorem C9_implementations_agree (ps : CoreIgnore.Patterns) (line path : String)
    (lines : List String) :
    CoreIgnore.add_pattern ps line = CoreIgnorePatterns.add_pattern ps line ∧
    CoreIgnore.matches_path ps path = CoreIgnorePatterns.matches_path ps path ∧
    CoreIgnore.add_lines ps lines = CoreIgnorePatterns.add_lines ps lines :=
  ⟨(add_pattern_eq ps line).symm, rfl, (add_lines_eq lines ps).symm⟩

/-- C1 counterexample: for the pattern set built from the non-negated rule
`*.md` and the negation rule `!/*` (in either insertion order), both
compiled globs match `sub/x.md` (as full path or filename), yet
`matches("sub/x.md")` is `true`, because the negation rule is a simple
anchored rule and is skipped for paths containing a separator.  This
falsifies the claim as stated. -/
theorem C1_counterexample :
    (CoreIgnore.add_lines [] ["*.md", "!/*"]).2 = true ∧
    ((CoreIgnore.add_lines [] ["*.md", "!/*"]).1.map
      (fun (r : Glob.Pattern × Bool × Bool) => (r.1.original, r.2.1, r.2.2))) =
      [("**/*.md", false, false), ("*", true, true)] ∧
    ((CoreIgnore.add_lines [] ["*.md", "!/*"]).1.all
      (fun (r : Glob.Pattern × Bool × Bool) =>
        r.1.matches "sub/x.md" || r.1.matches (fileName "sub/x.md"))) = true ∧
    CoreIgnore.matches_path (CoreIgnore.add_lines [] ["*.md", "!/*"]).1 "sub/x.md" = true ∧
    CoreIgnore.matches_path (CoreIgnore.add_lines [] ["!/*", "*.md"]).1 "sub/x.md" = true := by
  refine ⟨?_, ?_, ?_, ?_, ?_⟩ <;> decide

/-- C1 (amended): negation wins regardless of insertion position — for every
pattern store and path, if some stored negation rule matches the path's full
string or filename and is not skipped by the anchoring rule (that is, it is
not a simple anchored rule being tested against a separator-containing
path), then `matches` returns `false`, wherever that rule sits in the store.
The original claim must except skipped simple anchored negation rules. -/
theorem C1_negation_precedence (rs : CoreIgnore.Patterns) (path : String)
    (r : Glob.Pattern × Bool × Bool) (hmem : r ∈ rs) (hneg : r.2.1 = true)
    (hskip : ((r.2.2 && !hasChar r.1.original '/') && hasChar path '/') = false)
    (hmatch : (r.1.matches path || r.1.matches (fileName path)) = true) :
    CoreIgnore.matches_path rs path = false :=
  neg_rule_wins rs path r hmem hneg hskip hmatch

/-- Witness for C1 at the two-line store `*.txt`, `!important.txt` and the
path `sub/important.txt`. -/
theorem C1_negation_precedence_witness :
    CoreIgnore.matches_path (CoreIgnore.add_lines [] ["*.txt", "!important.txt"]).1
      "sub/important.txt" = false :=
  C1_negation_precedence _ _
    (⟨"**/important.txt",
      .anyRecursiveSequence :: ("important.txt".toList.map Glob.PatternToken.char)⟩,
      true, false)
    (by decide) (by decide) (by decide) (by decide)

/-- C5: for the pattern set built from the single anchored directive
`/root.md`, `matches("root.md")` is true, and for every path string that
contains a separator the rule is skipped, so `matches` returns false. -/
theorem C5_simple_anchored (path : String) (hp : hasChar path '/' = true) :
    CoreIgnore.matches_path (CoreIgnore.add_lines [] ["/root.md"]).1 "root.md" = true ∧
    CoreIgnore.matches_path (CoreIgnore.add_lines [] ["/root.md"]).1 path = false := by
  constructor
  · decide
  · have hps : (CoreIgnore.add_lines [] ["/root.md"]).1 =
        [(⟨"root.md", "root.md".toList.map Glob.PatternToken.char⟩, false, true)] := by
      decide
    have hroot : hasChar "root.md" '/' = false := by decide
    rw [hps]
    unfold CoreIgnore.matches_path
    dsimp only
    simp [hp, hroot]

/-- Witness for C5 at the concrete path `sub/root.md`. -/
theorem C5_simple_anchored_witness :
    hasChar "sub/root.md" '/' = true ∧
    CoreIgnore.matches_path (CoreIgnore.add_lines [] ["/root.md"]).1 "sub/root.md" = false :=
  ⟨by decide, (C5_simple_anchored "sub/root.md" (by decide)).2⟩

theorem splitOnceList_some_mem (c : Char) :
    ∀ (l : List Char) p, splitOnceList c l = some p → c ∈ l := by
  intro l
  induction l with
  | nil => intro p h; simp [splitOnceList] at h
  | cons x xs ih =>
    intro p h
    by_cases hx : x = c
    · exact hx ▸ List.mem_cons_self x xs
    · simp only [splitOnceList, if_neg hx] at h
      cases hsp : splitOnceList c xs with
      | none => rw [hsp] at h; simp at h
      | some q => exact List.mem_cons_of_mem x (ih q hsp)

theorem hasChar_of_splitOnce_some (s : String) (c : Char) (p : String × String)
    (h : splitOnce s c = some p) : hasChar s c = true := by
  unfold splitOnce at h
  cases hsp : splitOnceList c s.toList with
  | none => rw [hsp] at h; simp at h
  | some q =>
    have := splitOnceList_some_mem c s.toList q hsp
    simp [hasChar]
    exact this

/-- C6 counterexample: the input `a}b` has an unmatched `}` with no opening
`{`, yet `add_pattern` succeeds (no `CompileError`) and silently stores two
rules, the `}` being treated as a literal character.  This falsifies the
`}`-half of the claim. -/
theorem C6_counterexample :
    (CoreIgnore.add_pattern [] "a\x7db").2 = true ∧
    ((CoreIgnore.add_pattern [] "a\x7db").1.map
      (fun (r : Glob.Pattern × Bool × Bool) => r.1.original)) = ["**/a\x7db", "a\x7db"] := by
  refine ⟨?_, ?_⟩ <;> decide

/-- C6 (amended): an unmatched `{` whose remainder contains no `}` makes
`add_pattern` return a `CompileError` with nothing stored; an unmatched `}`
with no opening `{` is not an error — the `}` is treated as a literal
character and the line's rules are stored. -/
theorem C6_malformed_braces (ps : CoreIgnore.Patterns) (line pre suf : String)
    (hline : ((strTrim line).isEmpty || startsWithCh (strTrim line) '#') = false)
    (hopen : splitOnce (CoreIgnore.parse_line (strTrim line)).globPattern '\x7b' =
      some (pre, suf))
    (hclose : splitOnce suf '\x7d' = none) :
    CoreIgnore.add_pattern ps line = (ps, false) ∧
    (CoreIgnore.add_pattern [] "a\x7db").2 = true := by
  have hcb : hasChar (CoreIgnore.parse_line (strTrim line)).globPattern '\x7b' = true :=
    hasChar_of_splitOnce_some _ _ _ hopen
  constructor
  · simp [CoreIgnore.add_pattern, hline, hcb, hopen, hclose]
  · decide

/-- Witness for C6 at the concrete directive `a.{x` (unmatched `{`). -/
theorem C6_malformed_braces_witness :
    CoreIgnore.add_pattern [] "a.\x7bx" = ([], false) :=
  (C6_malformed_braces [] "a.\x7bx" "**/a." "x" (by decide) (by decide) (by decide)).1

/-- C2 counterexample: on the extension-group line `*.{js,[,ts}` the second
extension fails to compile (`**/*.[` is an invalid glob), so `add_pattern`
returns an error — yet the rule compiled for the first extension
(`**/*.js`) has already been appended, so the pattern set is not as it was
before the call.  This falsifies the atomicity claim. -/
theorem C2_counterexample :
    (CoreIgnore.add_pattern [] "*.\x7bjs,[,ts\x7d").2 = false ∧
    ((CoreIgnore.add_pattern [] "*.\x7bjs,[,ts\x7d").1.map
      (fun (r : Glob.Pattern × Bool × Bool) => r.1.original)) = ["**/*.js"] := by
  refine ⟨?_, ?_⟩ <;> decide

/-- C2 (amended): `add_pattern` only ever appends — on error the original
rules are an unmodified prefix of the store — and for every line that does
not take the extension-group branch (its rewritten glob contains no `{`), an
error leaves the store exactly unchanged.  A failing extension-group line
may keep the (fully compiled) rules of the extensions processed before the
failure. -/
theorem C2_error_atomicity :
    (∀ (ps : CoreIgnore.Patterns) (line : String),
      ∃ t, (CoreIgnore.add_pattern ps line).1 = ps ++ t) ∧
    (∀ (ps : CoreIgnore.Patterns) (line : String),
      hasChar (CoreIgnore.parse_line (strTrim line)).globPattern '\x7b' = false →
      (CoreIgnore.add_pattern ps line).2 = false →
      (CoreIgnore.add_pattern ps line).1 = ps) :=
  ⟨fun ps line => add_pattern_extends ps line,
    fun ps line hb he => add_pattern_err_unchanged ps line hb he⟩

/-- Witness for C2 at the concrete failing non-extension-group line `x[`
(invalid glob, not an extension group): the store is unchanged. -/
theorem C2_error_atomicity_witness :
    (CoreIgnore.add_pattern ([] : CoreIgnore.Patterns) "x[").1 = [] :=
  C2_error_atomicity.2 [] "x[" (by decide) (by decide)

/-- C7: extension-group expansion — whenever the extension-group loop of
`add_pattern` succeeds, it has appended exactly one compiled rule per
comma-separated (trimmed) extension, each being the compilation of the full
pattern `prefix ++ ext ++ suffix` (with the globstar token restored) and
carrying the line's negation and anchoring flags; in particular, for the
single directive `*.{js,ts}`, `matches("a.js")` and `matches("a.ts")` are
true and `matches("a.rs")` is false. -/
theorem C7_extension_group_expansion :
    (∀ (pre rest : String) (n a : Bool) (exts : List String),
      ∀ (ps rs : CoreIgnore.Patterns),
      CoreIgnore.add_exts ps pre rest n a exts = (ps ++ rs, true) →
      List.Forall₂ (fun e (r : Glob.Pattern × Bool × Bool) =>
        Glob.Pattern.new (strRestoreGlobstar (pre ++ e ++ rest)) = some r.1 ∧
        r.2.1 = n ∧ r.2.2 = a) exts rs) ∧
    CoreIgnore.matches_path (CoreIgnore.add_lines [] ["*.\x7bjs,ts\x7d"]).1 "a.js" = true ∧
    CoreIgnore.matches_path (CoreIgnore.add_lines [] ["*.\x7bjs,ts\x7d"]).1 "a.ts" = true ∧
    CoreIgnore.matches_path (CoreIgnore.add_lines [] ["*.\x7bjs,ts\x7d"]).1 "a.rs" = false := by
  refine ⟨?_, by decide, by decide, by decide⟩
  intro pre rest n a exts
  induction exts with
  | nil =>
    intro ps rs h
    simp only [CoreIgnore.add_exts, Prod.mk.injEq] at h
    have h1 := h.1
    nth_rewrite 1 [← List.append_nil ps] at h1
    have hrs := (List.append_cancel_left h1).symm
    subst hrs
    exact List.Forall₂.nil
  | cons e more ih =>
    intro ps rs h
    simp only [CoreIgnore.add_exts] at h
    cases hp : Glob.Pattern.new (strRestoreGlobstar (pre ++ e ++ rest)) with
    | none =>
      rw [hp] at h
      simp at h
    | some p =>
      rw [hp] at h
      dsimp only at h
      obtain ⟨t, ht⟩ := add_exts_extends more (ps ++ [(p, n, a)]) pre rest n a
      have h1 : (CoreIgnore.add_exts (ps ++ [(p, n, a)]) pre rest n a more).1 = ps ++ rs := by
        rw [h]
      have h2 : (CoreIgnore.add_exts (ps ++ [(p, n, a)]) pre rest n a more).2 = true := by
        rw [h]
      have hrs : rs = (p, n, a) :: t := by
        have h3 := ht.symm.trans h1
        rw [List.append_assoc] at h3
        have h4 := List.append_cancel_left h3
        simpa using h4.symm
      subst hrs
      refine List.Forall₂.cons ⟨hp, rfl, rfl⟩ ?_
      exact ih (ps ++ [(p, n, a)]) t (Prod.ext (by rw [ht]) (by rw [h2]))

/-- Witness for C7 at the concrete extension group `{js,ts}` with prefix
`**/*.` and empty suffix. -/
theorem C7_extension_group_expansion_witness :
    List.Forall₂ (fun e (r : Glob.Pattern × Bool × Bool) =>
      Glob.Pattern.new (strRestoreGlobstar ("**/*." ++ e ++ "")) = some r.1 ∧
      r.2.1 = false ∧ r.2.2 = false) ["js", "ts"]
      [(⟨"**/*.js", [.anyRecursiveSequence, .anySequence, .char '.', .char 'j', .char 's']⟩,
        false, false),
       (⟨"**/*.ts", [.anyRecursiveSequence, .anySequence, .char '.', .char 't', .char 's']⟩,
        false, false)] :=
  C7_extension_group_expansion.1 "**/*." "" false false ["js", "ts"] []
    [(⟨"**/*.js", [.anyRecursiveSequence, .anySequence, .char '.', .char 'j', .char 's']⟩,
        false, false),
     (⟨"**/*.ts", [.anyRecursiveSequence, .anySequence, .char '.', .char 't', .char 's']⟩,
        false, false)]
    (by decide)

/-- C4: for the pattern set built from the single bare-filename directive
`NOTES.md`, `matches` returns true exactly for paths whose final component
equals `NOTES.md` — in particular `matches("NOTES.md")` and
`matches("sub/NOTES.md")` are true — and returns false for any different
filename, including `OLD-NOTES.md` which merely contains it as a
substring. -/
theorem C4_bare_filename :
    (∀ path : String,
      CoreIgnore.matches_path (CoreIgnore.add_lines [] ["NOTES.md"]).1 path = true ↔
        fileName path = "NOTES.md") ∧
    CoreIgnore.matches_path (CoreIgnore.add_lines [] ["NOTES.md"]).1 "NOTES.md" = true ∧
    CoreIgnore.matches_path (CoreIgnore.add_lines [] ["NOTES.md"]).1 "sub/NOTES.md" = true ∧
    CoreIgnore.matches_path (CoreIgnore.add_lines [] ["NOTES.md"]).1 "OLD-NOTES.md" = false := by
  refine ⟨?_, by decide, by decide, by decide⟩
  have hps : (CoreIgnore.add_lines [] ["NOTES.md"]).1 =
      [(⟨"**/NOTES.md",
          .anyRecursiveSequence :: ("NOTES.md".toList.map Glob.PatternToken.char)⟩,
        false, false),
       (⟨"NOTES.md", "NOTES.md".toList.map Glob.PatternToken.char⟩, false, false)] := by
    decide
  intro path
  rw [hps]
  unfold CoreIgnore.matches_path
  dsimp only
  simp only [List.any_cons, List.any_nil, Glob.Pattern.matches]
  simp only [Bool.or_false, Bool.and_true, Bool.true_and, Bool.false_and, Bool.and_false,
    Bool.not_false, Bool.false_eq_true, if_false, Bool.or_eq_true]
  constructor
  · intro h
    rcases h with (h | h) | (h | h)
    · rw [matchTokens_rec_cons _ (by simp) _] at h
      rcases h with h | hex
      · have hpl := (matchTokens_literal "NOTES.md".toList path.toList).1 h
        rw [fileName_whole path "NOTES.md".toList hpl (by decide) (by decide) (by decide)
          (by decide)]
        rfl
      · obtain ⟨t, htmem, ht⟩ := hex
        have htl := (matchTokens_literal "NOTES.md".toList t).1 ht
        subst htl
        obtain ⟨u, hu⟩ := (compTails_mem "NOTES.md".toList path.toList).1 htmem
        rw [fileName_eq_of_decomp path u "NOTES.md".toList hu (by decide) (by decide)
          (by decide) (by decide)]
        rfl
    · rw [matchTokens_rec_cons _ (by simp) _] at h
      rcases h with h | hex
      · have hfl := (matchTokens_literal "NOTES.md".toList (fileName path).toList).1 h
        exact congrArg String.mk hfl
      · obtain ⟨t, htmem, ht⟩ := hex
        obtain ⟨u, hu⟩ := (compTails_mem t (fileName path).toList).1 htmem
        refine absurd ?_ (fileName_no_slash path)
        rw [hu]
        exact List.mem_append.2 (Or.inr (List.mem_cons_self _ _))
    · have hpl := (matchTokens_literal "NOTES.md".toList path.toList).1 h
      rw [fileName_whole path "NOTES.md".toList hpl (by decide) (by decide) (by decide)
        (by decide)]
      rfl
    · have hfl := (matchTokens_literal "NOTES.md".toList (fileName path).toList).1 h
      exact congrArg String.mk hfl
  · intro h
    have hm : Glob.matchTokens (List.map Glob.PatternToken.char "NOTES.md".toList)
        (fileName path).toList = true :=
      (matchTokens_literal "NOTES.md".toList (fileName path).toList).2 (by rw [h])
    exact Or.inr (Or.inr hm)

/-- Witness for C4: applying the characterization at the concrete path
`sub/NOTES.md`. -/
theorem C4_bare_filename_witness : fileName "sub/NOTES.md" = "NOTES.md" :=
  (C4_bare_filename.1 "sub/NOTES.md").1 (by decide)
